import Mathlib

/-!
Shallow embedding of the OncoSTR structure-segmentation pipeline
(`oncostr/structure_segmentation.py`, `oncostr/utils.py`).

Volumes are modelled as flat lists of rational voxel values (a NIfTI data
array in scan order); the spatial shape is irrelevant to every property
treated here, which is elementwise.  Label codes are rationals because the
Python code reads them from a float-valued NIfTI array and compares them
with `np.isclose`.  The IEEE-754 special values that `numpy` produces on
division by zero are modelled explicitly by the `NpFloat` type, since the
intensity normaliser of `tumor_entity_weighted_approach` can divide by zero.
Filesystem behaviour of `run` is modelled as a trace of effects.
-/

/-- `np.isclose(a, b)` with the numpy default tolerances
`atol = 1e-8`, `rtol = 1e-5`: `|a - b| <= atol + rtol * |b|`. -/
def npIsclose (a b : ℚ) : Bool := |a - b| ≤ 1 / 100000000 + |b| / 100000

/-- `arr[pred(arr)] = v`: numpy boolean-mask assignment on a flat array. -/
def setWhere (a : List ℚ) (p : ℚ → Bool) (v : ℚ) : List ℚ :=
  a.map (fun x => if p x then v else x)

/-- Insertion step of an ascending sort (used to model the sorted output
of `np.unique`). -/
def insertAsc (x : ℚ) : List ℚ → List ℚ
  | [] => [x]
  | a :: as => if x ≤ a then x :: a :: as else a :: insertAsc x as

/-- Ascending sort of a list of rationals. -/
def sortAsc (l : List ℚ) : List ℚ := l.foldr insertAsc []

/-- Duplicate removal (order of survivors is irrelevant: the result is
sorted afterwards, matching `np.unique`). -/
def removeDups : List ℚ → List ℚ
  | [] => []
  | x :: xs => if x ∈ xs then removeDups xs else x :: removeDups xs

/-- `np.unique(arr)`: the sorted list of distinct values of the array. -/
def npUnique (l : List ℚ) : List ℚ := sortAsc (removeDups l)

/-- Python `list.remove(x)`: removes the first occurrence of `x`, raises
`ValueError: list.remove(x): x not in list` when `x` is absent. -/
def listRemove : List ℚ → ℚ → Except String (List ℚ)
  | [], _ => .error "list.remove(x): x not in list"
  | a :: as, x =>
    if a = x then .ok as
    else
      match listRemove as x with
      | .error e => .error e
      | .ok l => .ok (a :: l)

/-- The `for comp in inner_compartments:` loop of `image2mask`
(`structure_segmentation.py` lines 181-183 / `utils.py` lines 124-126):
`mask[np.isclose(mask, comp)] = 1.0` followed by `unique.remove(comp)`,
where the removal raises when `comp` is not in the remaining list. -/
def innerLoop : List ℚ → List ℚ → List ℚ → Except String (List ℚ × List ℚ)
  | [], mask, unique => .ok (mask, unique)
  | comp :: comps, mask, unique =>
    let mask := setWhere mask (fun x => npIsclose x comp) 1
    match listRemove unique comp with
    | .error e => .error e
    | .ok unique => innerLoop comps mask unique

/-- `image2mask(image_dir, compartment, inner_compartments)`
(`structure_segmentation.py` lines 163-184 / `utils.py` lines 107-127).
The file load `image2array` is replaced by its result `vals`, the flat
voxel array of the label volume.  Step by step:
`unique = list(np.unique(mask)); unique.remove(compartment)` (raises if the
target is absent); `for outer in unique: mask[np.isclose(mask, outer)] = 0.0`
(a left fold because each step mutates the array the next step reads);
`mask[np.isclose(mask, compartment)] = 1.0`; then the inner-compartment
loop `innerLoop` when `inner_compartments is not None`. -/
def image2mask (vals : List ℚ) (compartment : ℚ)
    (inner_compartments : Option (List ℚ)) : Except String (List ℚ) :=
  match listRemove (npUnique vals) compartment with
  | .error e => .error e
  | .ok unique =>
    let mask := unique.foldl (fun m outer => setWhere m (fun x => npIsclose x outer) 0) vals
    let mask := setWhere mask (fun x => npIsclose x compartment) 1
    match inner_compartments with
    | none => .ok mask
    | some comps =>
      match innerLoop comps mask unique with
      | .error e => .error e
      | .ok r => .ok r.1

/-- The mask the specification describes (`labelToMask`): 1 wherever the
label volume is (within `np.isclose` tolerance of) the target code or any
code of `extra`, 0 elsewhere.  Written from the words of the spec, to be
compared with `image2mask`, the definition taken from the code. -/
def specLabelToMask (vals : List ℚ) (target : ℚ) (extra : List ℚ) : List ℚ :=
  vals.map (fun x =>
    if npIsclose x target || extra.any (fun c => npIsclose x c) then 1 else 0)

/-- `cut_area_from_image(input_image, area_mask, inverse)`
(`structure_segmentation.py` lines 135-150 / `utils.py` lines 79-93),
with the image and the mask replaced by their flat voxel arrays.
`if inverse: area_mask = fslmaths(area_mask).mul(-1).add(1).run()` and the
result is `fslmaths(input_image).mul(area_mask).run()`, i.e. the
elementwise product of the image with the (possibly inverted) mask. -/
def cut_area_from_image (volume : List ℚ) (area_mask : List ℚ) (inverse : Bool) : List ℚ :=
  let area_mask := if inverse then area_mask.map (fun x => x * (-1) + 1) else area_mask
  List.zipWith (fun a b => a * b) volume area_mask

/-- IEEE-754 double values that can appear during the normalisation of
`tumor_entity_weighted_approach`: a finite value (kept exact as a
rational), the two infinities and NaN. -/
inductive NpFloat where
  | nan : NpFloat
  | pinf : NpFloat
  | ninf : NpFloat
  | fin : ℚ → NpFloat
deriving DecidableEq, Repr

/-- IEEE division of two finite values: finite quotient when the divisor
is nonzero, otherwise `0/0 = NaN`, `pos/0 = +inf`, `neg/0 = -inf`
(numpy emits a warning but no exception). -/
def npDiv (a b : ℚ) : NpFloat :=
  if b = 0 then (if a = 0 then .nan else if 0 < a then .pinf else .ninf)
  else .fin (a / b)

/-- `x < 0` on an IEEE value: NaN compares false, `-inf < 0` is true. -/
def NpFloat.ltZero : NpFloat → Bool
  | .nan => false
  | .pinf => false
  | .ninf => true
  | .fin q => q < 0

/-- `x + 1` on an IEEE value. -/
def NpFloat.addOne : NpFloat → NpFloat
  | .nan => .nan
  | .pinf => .pinf
  | .ninf => .ninf
  | .fin q => .fin (q + 1)

/-- `array[array == 0] = -1`, applied voxelwise. -/
def zeroToSentinel (v : ℚ) : ℚ := if v = 0 then -1 else v

/-- `arr.min()` of a numpy array: `none` models the `ValueError` numpy
raises on an empty array. -/
def npMin : List ℚ → Option ℚ
  | [] => none
  | x :: xs =>
    some (match npMin xs with
      | none => x
      | some m => min x m)

/-- `arr.max()` of a numpy array, `none` on an empty array. -/
def npMax : List ℚ → Option ℚ
  | [] => none
  | x :: xs =>
    some (match npMax xs with
      | none => x
      | some m => max x m)

/-- The intensity normalisation of `tumor_entity_weighted_approach`
(`structure_segmentation.py` lines 294-297), applied to the flat voxel
array of the cut image:
`array[array == 0] = -1`;
`array = (array - array[array > 0].min()) / (array.max() - array[array > 0].min())`
(`none` models the `ValueError` raised by `.min()` of the empty selection
when no voxel is strictly positive; the division is IEEE, so a zero
denominator produces NaN/infinities instead of raising);
`array[array < 0] = -1`; `array = array + 1`. -/
def normalizeIntensity (a : List ℚ) : Option (List NpFloat) :=
  match npMin (((a.map zeroToSentinel).filter (fun v => decide (0 < v)))) with
  | none => none
  | some fgMin =>
    match npMax (a.map zeroToSentinel) with
    | none => none
    | some vMax =>
      some (((((a.map zeroToSentinel).map
        (fun v => npDiv (v - fgMin) (vMax - fgMin))).map
          (fun v => if v.ltZero then NpFloat.fin (-1) else v)).map NpFloat.addOne))

/-- Voxelwise composition of the four normalisation steps; used to state
what `normalizeIntensity` returns at each index. -/
def normVoxel (fgMin vMax : ℚ) (v : ℚ) : NpFloat :=
  NpFloat.addOne
    (if (npDiv (zeroToSentinel v - fgMin) (vMax - fgMin)).ltZero then NpFloat.fin (-1)
     else npDiv (zeroToSentinel v - fgMin) (vMax - fgMin))

/-- `os.sep` on the target platform. -/
def ossep : String := "/"

/-- `STRUCTURE_SEGMENTATION_PATH = "structure_segmentation" + os.path.sep`. -/
def STRUCTURE_SEGMENTATION_PATH : String := "structure_segmentation" ++ ossep

/-- A CPython string object: its object identity (the result of `id`)
and its text.  The `is` operator compares identities; `==` compares
text.  Two strings with the same identity are physically the same
object; equal text does not imply equal identity (only interned strings
are shared). -/
structure PyStr where
  ident : ℕ
  val : String
deriving DecidableEq, Repr

/-- Python `a is b` for strings: object identity. -/
def pyIs (a b : PyStr) : Bool := a.ident = b.ident

/-- Python `x in l` for a list of strings: per element, identity
short-circuit or text equality (`any(e is x or e == x)`). -/
def pyIn (x : PyStr) (l : List PyStr) : Bool :=
  l.any (fun e => pyIs x e || x.val = e.val)

/-- Python `x is l[i]` for a list of strings.  An out-of-range index
would raise `IndexError`; the mode list always has three elements, so
that path is unreachable and is mapped to `false`. -/
def pyIsElem (x : PyStr) (l : List PyStr) (i : ℕ) : Bool :=
  match l[i]? with
  | none => false
  | some e => pyIs x e

/-- The `tumor_agnostic` string literal of the module.  CPython interns
compile-time string constants, so `__init__` gives `self.mode` and the
elements of `self.modes` these fixed identities; a mode string built at
run time (read from a config file, taken from `sys.argv`, produced by
concatenation) is equal in text but has a fresh identity. -/
def internTumorAgnostic : PyStr := ⟨1, "tumor_agnostic"⟩

/-- The interned `bias_corrected` literal of the module. -/
def internBiasCorrected : PyStr := ⟨2, "bias_corrected"⟩

/-- The interned `tumor_entity_weighted` literal of the module. -/
def internTumorEntityWeighted : PyStr := ⟨3, "tumor_entity_weighted"⟩

/-- The attribute state of a `StructureSegmentation` object
(`structure_segmentation.py` lines 101-115).  `affine` carries no
information relevant to the claims and is omitted.  `mode` and the
elements of `modes` carry their CPython object identity, because `run`
compares them with the `is` operator. -/
structure StructureSegmentation where
  work_dir : String
  out_dir : String
  input_files_dir : Option (List String)
  tumor_seg_dir : Option String
  remove_interim_files : Bool
  modes : List PyStr
  mode : PyStr
  brain_handling_classes : List String
  tumor_class_mapping : List (String × ℚ)

/-- `StructureSegmentation.__init__(work_dir)`: defaults `work_dir` to the
current working directory (`cwd`, passed explicitly since it is
environment state), appends `os.sep` when missing, and derives
`out_dir = work_dir + STRUCTURE_SEGMENTATION_PATH` once.  `mode` and
`modes` are assigned the interned module literals, so initially
`self.mode is self.modes[1]` holds. -/
def initStructureSegmentation (work_dir : Option String) (cwd : String) :
    StructureSegmentation :=
  let w := match work_dir with
    | none => cwd ++ ossep
    | some w => w
  let w := if w.endsWith ossep then w else w ++ ossep
  { work_dir := w
    out_dir := w ++ STRUCTURE_SEGMENTATION_PATH
    input_files_dir := none
    tumor_seg_dir := none
    remove_interim_files := true
    modes := [internTumorAgnostic, internBiasCorrected, internTumorEntityWeighted]
    mode := internBiasCorrected
    brain_handling_classes := ["cerebrospinal_fluid", "gray_matter", "white_matter"]
    tumor_class_mapping := [("edema", 2), ("active", 4), ("necrotic", 1)] }

/-- Python attribute assignment `self.work_dir = w`: nothing in the class
recomputes `out_dir` afterwards. -/
def setWorkDir (s : StructureSegmentation) (w : String) : StructureSegmentation :=
  { s with work_dir := w }

/-- One filesystem-mutating step of `run`, tagged with the directory it
operates in.  The sub-routines are opaque here: each reads and writes only
under `out_dir` (plus the configured input files). -/
inductive RunEffect where
  | mkdirIfNotExist (dir : String)
  | splitTumorFromBrain (outDir : String)
  | segmentBrainPart (outDir : String)
  | tumorAgnosticMode (outDir : String)
  | biasCorrectedApproach (outDir : String)
  | tumorEntityWeightedApproach (outDir : String)
  | removeInterimFiles (outDir : String)
deriving DecidableEq, Repr

/-- `StructureSegmentation.run` (`structure_segmentation.py` lines
301-341) as a trace of filesystem effects: the list holds the mutating
steps actually performed, in program order; the `Option String` is the
message of the exception raised, `none` when the run completes.  The
first check is `self.mode not in self.modes` (identity-or-equality per
element); the second is `self.mode is self.modes[1] or self.mode is
self.modes[2]` — CPython object identity, strictly finer than text
equality.  When both identity tests miss although the mode text is
`bias_corrected` or `tumor_entity_weighted` (a non-interned mode
string) and `tumor_seg_dir is None`, the run proceeds past validation:
`mkdir_if_not_exist(self.out_dir)` mutates the filesystem, and
`split_tumor_from_brain` then raises `TypeError` inside
`image2mask(None, ...)` (`nib.load(None)`) before writing any file —
that aborted path is the third branch below.  The mode dispatches after
validation compare text (`==` and `in` against fresh list literals). -/
def run (s : StructureSegmentation) : List RunEffect × Option String :=
  if ¬ pyIn s.mode s.modes then
    ([], some ("Error: Selected mode: " ++ s.mode.val ++ " is not implemented."))
  else if (pyIsElem s.mode s.modes 1 ∨ pyIsElem s.mode s.modes 2) ∧ s.tumor_seg_dir = none then
    ([], some ("Error: For selected mode " ++ s.mode.val ++ " the tumor_seg_dir should not be None."))
  else if (s.mode.val = "bias_corrected" ∨ s.mode.val = "tumor_entity_weighted") ∧
      s.tumor_seg_dir = none then
    ([RunEffect.mkdirIfNotExist s.out_dir],
     some "TypeError: nib.load(None) raised in image2mask")
  else
    ([RunEffect.mkdirIfNotExist s.out_dir]
      ++ (if s.mode.val = "tumor_agnostic" then [RunEffect.tumorAgnosticMode s.out_dir] else [])
      ++ (if s.mode.val = "bias_corrected" ∨ s.mode.val = "tumor_entity_weighted" then
            [RunEffect.splitTumorFromBrain s.out_dir, RunEffect.segmentBrainPart s.out_dir]
            ++ (if s.mode.val = "bias_corrected" then [RunEffect.biasCorrectedApproach s.out_dir] else [])
            ++ (if s.mode.val = "tumor_entity_weighted" then [RunEffect.tumorEntityWeightedApproach s.out_dir] else [])
          else [])
      ++ (if s.remove_interim_files then [RunEffect.removeInterimFiles s.out_dir] else []),
    none)

/-- The `os.rename` pairs issued by the renaming loops
(`segment_brain_part` lines 247-248, `tumor_agnostic_mode` lines 257-258
with empty basename, `bias_corrected_approach` lines 273-274):
`for i, seg_class in enumerate(classes): os.rename(out_dir + basename +
"_pve_" + str(i) + ".nii.gz", out_dir + seg_class + ".nii.gz")`. -/
def renameClassOutputs (out_dir basename : String) (classes : List String) :
    List (String × String) :=
  classes.enum.map (fun p =>
    (out_dir ++ basename ++ "_pve_" ++ toString p.1 ++ ".nii.gz",
     out_dir ++ p.2 ++ ".nii.gz"))

/-- Renaming performed by `segment_brain_part` (line 247-248). -/
def segmentBrainPartRenames (s : StructureSegmentation) : List (String × String) :=
  renameClassOutputs s.out_dir "wms_Brain" s.brain_handling_classes

/-- Renaming performed by `tumor_agnostic_mode` (line 257-258): the fast
basename there is `out_dir` itself, so the source files are
`out_dir + "_pve_" + str(i) + ".nii.gz"`. -/
def tumorAgnosticModeRenames (s : StructureSegmentation) : List (String × String) :=
  renameClassOutputs s.out_dir "" s.brain_handling_classes

/-- Renaming performed by `bias_corrected_approach` (line 273-274), in the
insertion order of `tumor_class_mapping`. -/
def biasCorrectedApproachRenames (s : StructureSegmentation) : List (String × String) :=
  renameClassOutputs s.out_dir "tumor_class" (s.tumor_class_mapping.map Prod.fst)

/-- Claim C1 evaluation at the failing input: on the label volume with
voxels `[0, 1, 2, 4]`, target code `2` and extra codes `[4, 1]`, the code
returns the mask `[0, 0, 1, 0]` — the extra codes are never included,
because the inner-compartment pass runs on the already binarised array —
while the mask described by the spec (and by the docstring of the
function itself) is `[0, 1, 1, 1]`. -/
theorem image2mask_ignores_inner_compartments :
    (image2mask [0, 1, 2, 4] 2 (some [4, 1])).toOption = some [0, 0, 1, 0] ∧
    specLabelToMask [0, 1, 2, 4] 2 [4, 1] = [0, 1, 1, 1] ∧
    ([0, 0, 1, 0] : List ℚ) ≠ [0, 1, 1, 1] := by
  refine ⟨?_, ?_, by norm_num⟩
  · norm_num [image2mask, npUnique, removeDups, sortAsc, insertAsc, listRemove, innerLoop,
      setWhere, npIsclose, Except.toOption, abs]
  · norm_num [specLabelToMask, npIsclose, abs]

theorem mem_insertAsc {x y : ℚ} : ∀ {l : List ℚ}, x ∈ insertAsc y l ↔ x = y ∨ x ∈ l
  | [] => by simp [insertAsc]
  | a :: as => by
    simp only [insertAsc]
    split
    · simp [List.mem_cons]
    · simp only [List.mem_cons, mem_insertAsc (l := as)]
      tauto

theorem mem_sortAsc {x : ℚ} : ∀ {l : List ℚ}, x ∈ sortAsc l ↔ x ∈ l
  | [] => Iff.rfl
  | a :: as => by
    show x ∈ insertAsc a (sortAsc as) ↔ x ∈ a :: as
    rw [mem_insertAsc, mem_sortAsc (l := as)]
    simp [List.mem_cons]

theorem mem_removeDups {x : ℚ} : ∀ {l : List ℚ}, x ∈ removeDups l ↔ x ∈ l
  | [] => Iff.rfl
  | a :: as => by
    simp only [removeDups]
    split
    · rename_i h
      rw [mem_removeDups (l := as)]
      simp only [List.mem_cons]
      constructor
      · exact Or.inr
      · rintro (rfl | hx)
        · exact h
        · exact hx
    · simp only [List.mem_cons, mem_removeDups (l := as)]

theorem mem_npUnique {x : ℚ} {l : List ℚ} : x ∈ npUnique l ↔ x ∈ l := by
  unfold npUnique
  rw [mem_sortAsc, mem_removeDups]

theorem listRemove_not_mem : ∀ {l : List ℚ} {x : ℚ}, x ∉ l →
    listRemove l x = .error "list.remove(x): x not in list"
  | [], _, _ => rfl
  | a :: as, x, h => by
    have h1 : ¬ a = x := fun hax => h (by simp [hax])
    have h2 : x ∉ as := fun hx => h (List.mem_cons_of_mem a hx)
    simp only [listRemove, if_neg h1, listRemove_not_mem h2]

theorem listRemove_ok_mem : ∀ {l : List ℚ} {x : ℚ} {l2 : List ℚ},
    listRemove l x = .ok l2 → x ∈ l
  | [], _, _, h => Except.noConfusion h
  | a :: as, x, l2, h => by
    by_cases hax : a = x
    · rw [← hax]
      exact List.mem_cons_self a as
    · simp only [listRemove, if_neg hax] at h
      cases hrec : listRemove as x with
      | error e => rw [hrec] at h; exact Except.noConfusion h
      | ok l3 => exact List.mem_cons_of_mem a (listRemove_ok_mem hrec)

theorem listRemove_ok_subset : ∀ {l : List ℚ} {x : ℚ} {l2 : List ℚ},
    listRemove l x = .ok l2 → ∀ y ∈ l2, y ∈ l
  | [], _, _, h => Except.noConfusion h
  | a :: as, x, l2, h => by
    by_cases hax : a = x
    · simp only [listRemove, if_pos hax] at h
      injection h with h
      subst h
      exact fun y hy => List.mem_cons_of_mem a hy
    · simp only [listRemove, if_neg hax] at h
      cases hrec : listRemove as x with
      | error e => rw [hrec] at h; exact Except.noConfusion h
      | ok l3 =>
        rw [hrec] at h
        injection h with h
        subst h
        intro y hy
        rcases List.mem_cons.mp hy with rfl | hy
        · exact List.mem_cons_self _ _
        · exact List.mem_cons_of_mem a (listRemove_ok_subset hrec y hy)

theorem innerLoop_error_of_absent : ∀ {comps : List ℚ} {c : ℚ} (mask unique : List ℚ),
    c ∈ comps → c ∉ unique → ∃ e, innerLoop comps mask unique = .error e
  | [], c, _, _, hc, _ => absurd hc (List.not_mem_nil c)
  | comp :: comps, c, mask, unique, hc, hu => by
    simp only [innerLoop]
    cases hrem : listRemove unique comp with
    | error e => exact ⟨e, rfl⟩
    | ok u2 =>
      have hcomp : comp ∈ unique := listRemove_ok_mem hrem
      have hcc : c ≠ comp := fun h => hu (h ▸ hcomp)
      have hcin : c ∈ comps := by
        rcases List.mem_cons.mp hc with h | h
        · exact absurd h hcc
        · exact h
      have hcu2 : c ∉ u2 := fun h => hu (listRemove_ok_subset hrem c h)
      exact innerLoop_error_of_absent _ _ hcin hcu2

/-- Claim C2 counterexample: on the label volume `[0, 2]` the target code
`2` is present, but `image2mask` with the extra code `4` — absent from the
volume — raises (`list.remove` of the missing value) instead of treating
the absent extra code as a no-op. -/
theorem image2mask_absent_extra_counterexample :
    (image2mask [0, 2] 2 (some [4])).toOption = none ∧ (2 : ℚ) ∈ [(0 : ℚ), 2] := by
  constructor
  · norm_num [image2mask, npUnique, removeDups, sortAsc, insertAsc, listRemove, innerLoop,
      setWhere, npIsclose, Except.toOption, abs]
  · norm_num

/-- Claim C2 (amended): whenever some code of `inner_compartments` is
absent from the values of the label volume, `image2mask` raises an error
(Python `ValueError` from `unique.remove`) — an absent extra code is never
a tolerated no-op, whether or not the target is present. -/
theorem image2mask_absent_extra_errors (vals : List ℚ) (compartment c : ℚ)
    (comps : List ℚ) (hc : c ∈ comps) (habs : c ∉ vals) :
    ∃ e, image2mask vals compartment (some comps) = .error e := by
  unfold image2mask
  cases hrem : listRemove (npUnique vals) compartment with
  | error e => exact ⟨e, rfl⟩
  | ok unique =>
    have hcu : c ∉ unique := fun h =>
      habs (mem_npUnique.mp (listRemove_ok_subset hrem c h))
    obtain ⟨e, he⟩ :=
      innerLoop_error_of_absent
        (setWhere
          (unique.foldl (fun m outer => setWhere m (fun x => npIsclose x outer) 0) vals)
          (fun x => npIsclose x compartment) 1)
        unique hc hcu
    refine ⟨e, ?_⟩
    show (match innerLoop comps
        (setWhere
          (unique.foldl (fun m outer => setWhere m (fun x => npIsclose x outer) 0) vals)
          (fun x => npIsclose x compartment) 1) unique with
      | Except.error e => Except.error e
      | Except.ok r => Except.ok r.1) = Except.error e
    rw [he]

/-- Claim C2 witness: concrete instance of the amended claim, target `2`
present in `[0, 2]`, extra code `4` absent. -/
theorem image2mask_absent_extra_errors_witness :
    ∃ e, image2mask [0, 2] 2 (some [4]) = .error e :=
  image2mask_absent_extra_errors [0, 2] 2 4 [4] (by norm_num) (by norm_num)

/-- Claim C6: when the target code is not among the values of the label
volume, `image2mask` fails immediately with the `list.remove` error
(Python `ValueError`, named `LabelNotFoundError` in the spec) instead of
returning an empty mask. -/
theorem image2mask_target_absent_errors (vals : List ℚ) (compartment : ℚ)
    (inner_compartments : Option (List ℚ)) (h : compartment ∉ vals) :
    image2mask vals compartment inner_compartments =
      .error "list.remove(x): x not in list" := by
  unfold image2mask
  rw [listRemove_not_mem (fun hmem => h (mem_npUnique.mp hmem))]

/-- Claim C6 witness: target code `5` is absent from `[0, 2]`. -/
theorem image2mask_target_absent_errors_witness :
    image2mask [0, 2] 5 none = .error "list.remove(x): x not in list" :=
  image2mask_target_absent_errors [0, 2] 5 none (by norm_num)

theorem zip_cut_partition : ∀ (v m : List ℚ), v.length = m.length →
    List.zipWith (fun a b => a + b)
      (cut_area_from_image v m false) (cut_area_from_image v m true) = v
  | [], _, _ => rfl
  | a :: as, [], hlen => by simp at hlen
  | a :: as, b :: bs, hlen => by
    have ih := zip_cut_partition as bs (by simpa using hlen)
    show (a * b + a * (b * (-1) + 1)) ::
        List.zipWith (fun a b => a + b)
          (cut_area_from_image as bs false) (cut_area_from_image as bs true) = a :: as
    rw [ih]
    congr 1
    ring

/-- Claim C5: `cut_area_from_image` returns the elementwise product of the
volume with the mask when `inverse` is false, with the inverted mask
`1 - m` when `inverse` is true, and for same-shape binary masks the two
cuts sum voxelwise back to the original volume. -/
theorem cut_area_partition (v m : List ℚ) (hlen : v.length = m.length)
    (hbin : ∀ x ∈ m, x = 0 ∨ x = 1) :
    cut_area_from_image v m false = List.zipWith (fun a b => a * b) v m ∧
    cut_area_from_image v m true = List.zipWith (fun a b => a * (1 - b)) v m ∧
    List.zipWith (fun a b => a + b)
      (cut_area_from_image v m false) (cut_area_from_image v m true) = v := by
  refine ⟨rfl, ?_, zip_cut_partition v m hlen⟩
  show List.zipWith (fun a b => a * b) v (m.map fun x => x * (-1) + 1) =
    List.zipWith (fun a b => a * (1 - b)) v m
  rw [List.zipWith_map_right]
  congr 1
  funext a b
  ring

/-- Claim C5 witness: volume `[3, 5]` with binary mask `[1, 0]`. -/
theorem cut_area_partition_witness :
    cut_area_from_image [3, 5] [1, 0] false = List.zipWith (fun a b => a * b) [3, 5] [1, 0] ∧
    cut_area_from_image [3, 5] [1, 0] true = List.zipWith (fun a b => a * (1 - b)) [3, 5] [1, 0] ∧
    List.zipWith (fun a b => a + b) (cut_area_from_image [3, 5] [1, 0] false)
      (cut_area_from_image [3, 5] [1, 0] true) = [3, 5] :=
  cut_area_partition [3, 5] [1, 0] rfl (by norm_num)

/-- Claim C7: in every renaming loop, the external output of index `i`
(`..._pve_i.nii.gz`) is renamed to exactly the `i`-th configured class
name; the assignment is a pure function of the configuration, so
repeating a strategy with the same inputs assigns identical names. -/
theorem renameClassOutputs_index (out_dir basename : String) (classes : List String)
    (i : ℕ) (n : String) (h : classes[i]? = some n) :
    (renameClassOutputs out_dir basename classes)[i]? =
      some (out_dir ++ basename ++ "_pve_" ++ toString i ++ ".nii.gz",
            out_dir ++ n ++ ".nii.gz") := by
  unfold renameClassOutputs
  rw [List.getElem?_map, List.getElem?_enum, h]
  rfl

/-- Claim C7 witness: with the default brain classes, output index 1 of
`segment_brain_part` is renamed to `gray_matter.nii.gz`. -/
theorem renameClassOutputs_index_witness :
    (renameClassOutputs "/w/structure_segmentation/" "wms_Brain"
      ["cerebrospinal_fluid", "gray_matter", "white_matter"])[1]? =
      some ("/w/structure_segmentation/" ++ "wms_Brain" ++ "_pve_" ++ toString 1 ++ ".nii.gz",
            "/w/structure_segmentation/" ++ "gray_matter" ++ ".nii.gz") :=
  renameClassOutputs_index "/w/structure_segmentation/" "wms_Brain"
    ["cerebrospinal_fluid", "gray_matter", "white_matter"] 1 "gray_matter" rfl

/-- Claim C4: the validation guard of `run` compares mode strings with
the CPython `is` operator instead of `==`.  For the freshly constructed
object the mode is the interned `bias_corrected` literal and the run
raises with an empty effect trace, as the claim says; but a mode string
with the same text and a fresh identity (read from a config file, taken
from `sys.argv`, or built by concatenation, then assigned to
`self.mode`) passes the membership check, misses both identity checks,
and the run creates the output directory — a filesystem mutation —
before crashing on the missing tumor volume inside
`split_tumor_from_brain`: the claimed guarantee fails on the code. -/
theorem run_identity_guard_skips_validation :
    (run (initStructureSegmentation (some "/data/case1/") "/")).1 = [] ∧
    (run (initStructureSegmentation (some "/data/case1/") "/")).2.isSome = true ∧
    ({ initStructureSegmentation (some "/data/case1/") "/" with
        mode := ⟨99, "bias_corrected"⟩ } : StructureSegmentation).mode.val =
      "bias_corrected" ∧
    ({ initStructureSegmentation (some "/data/case1/") "/" with
        mode := ⟨99, "bias_corrected"⟩ } : StructureSegmentation).tumor_seg_dir = none ∧
    (run { initStructureSegmentation (some "/data/case1/") "/" with
        mode := ⟨99, "bias_corrected"⟩ }).1 =
      [RunEffect.mkdirIfNotExist
        (initStructureSegmentation (some "/data/case1/") "/").out_dir] ∧
    (run { initStructureSegmentation (some "/data/case1/") "/" with
        mode := ⟨99, "bias_corrected"⟩ }).2 =
      some "TypeError: nib.load(None) raised in image2mask" :=
  ⟨rfl, rfl, rfl, rfl, rfl, rfl⟩

/-- Claim C9: `out_dir` is derived from `work_dir` exactly once, in
`__init__` (the normalised work directory plus the fixed
`structure_segmentation/` subpath); a later assignment to the `work_dir`
attribute leaves `out_dir` — and with it the whole effect trace of
`run`, which addresses the filesystem only through `out_dir` — unchanged. -/
theorem out_dir_fixed_at_construction (s : StructureSegmentation) (w u cwd : String) :
    (initStructureSegmentation (some u) cwd).out_dir =
      (if u.endsWith ossep then u else u ++ ossep) ++ STRUCTURE_SEGMENTATION_PATH ∧
    (setWorkDir s w).out_dir = s.out_dir ∧
    run (setWorkDir s w) = run s :=
  ⟨rfl, rfl, rfl⟩

theorem npMin_eq_none : ∀ {l : List ℚ}, npMin l = none → l = []
  | [], _ => rfl
  | _ :: _, h => by simp only [npMin] at h; exact Option.noConfusion h

theorem npMax_eq_none : ∀ {l : List ℚ}, npMax l = none → l = []
  | [], _ => rfl
  | _ :: _, h => by simp only [npMax] at h; exact Option.noConfusion h

theorem npMin_exists : ∀ {l : List ℚ}, l ≠ [] → ∃ m, npMin l = some m
  | [], h => absurd rfl h
  | _ :: _, _ => ⟨_, rfl⟩

theorem npMax_exists : ∀ {l : List ℚ}, l ≠ [] → ∃ m, npMax l = some m
  | [], h => absurd rfl h
  | _ :: _, _ => ⟨_, rfl⟩

theorem npMin_mem : ∀ {l : List ℚ} {m : ℚ}, npMin l = some m → m ∈ l
  | [], _, h => by exact Option.noConfusion h
  | a :: as, m, h => by
    simp only [npMin] at h
    injection h with h
    cases hxs : npMin as with
    | none =>
      rw [hxs] at h
      have h2 : m = a := h.symm
      rw [h2]
      exact List.mem_cons_self a as
    | some m2 =>
      rw [hxs] at h
      have h2 : m = min a m2 := h.symm
      rw [h2]
      rcases min_cases a m2 with ⟨he, _⟩ | ⟨he, _⟩
      · rw [he]; exact List.mem_cons_self a as
      · rw [he]; exact List.mem_cons_of_mem a (npMin_mem hxs)

theorem npMin_le : ∀ {l : List ℚ} {m : ℚ}, npMin l = some m → ∀ x ∈ l, m ≤ x
  | [], _, h => by exact Option.noConfusion h
  | a :: as, m, h => by
    simp only [npMin] at h
    injection h with h
    intro x hx
    cases hxs : npMin as with
    | none =>
      rw [hxs] at h
      rcases List.mem_cons.mp hx with rfl | hx2
      · exact le_of_eq h.symm
      · exact absurd (npMin_eq_none hxs ▸ hx2) (List.not_mem_nil x)
    | some m2 =>
      rw [hxs] at h
      rcases List.mem_cons.mp hx with rfl | hx2
      · exact le_trans (le_of_eq h.symm) (min_le_left _ m2)
      · exact le_trans (le_of_eq h.symm)
          (le_trans (min_le_right a m2) (npMin_le hxs x hx2))

theorem npMax_ge : ∀ {l : List ℚ} {m : ℚ}, npMax l = some m → ∀ x ∈ l, x ≤ m
  | [], _, h => by exact Option.noConfusion h
  | a :: as, m, h => by
    simp only [npMax] at h
    injection h with h
    intro x hx
    cases hxs : npMax as with
    | none =>
      rw [hxs] at h
      rcases List.mem_cons.mp hx with rfl | hx2
      · exact le_of_eq h
      · exact absurd (npMax_eq_none hxs ▸ hx2) (List.not_mem_nil x)
    | some m2 =>
      rw [hxs] at h
      rcases List.mem_cons.mp hx with rfl | hx2
      · exact le_trans (le_max_left _ m2) (le_of_eq h)
      · exact le_trans (le_trans (npMax_ge hxs x hx2) (le_max_right a m2)) (le_of_eq h)

theorem normalizeIntensity_eq_map {a : List ℚ} {fgMin vMax : ℚ}
    (hm : npMin ((a.map zeroToSentinel).filter (fun v => decide (0 < v))) = some fgMin)
    (hM : npMax (a.map zeroToSentinel) = some vMax) :
    normalizeIntensity a = some (a.map (normVoxel fgMin vMax)) := by
  unfold normalizeIntensity
  simp only [hm, hM]
  rw [List.map_map, List.map_map, List.map_map]
  rfl

theorem normVoxel_nonpos {fgMin vMax v : ℚ} (hfg : 0 < fgMin) (hle : fgMin ≤ vMax)
    (hv : v ≤ 0) : normVoxel fgMin vMax v = NpFloat.fin 0 := by
  have hz : zeroToSentinel v < 0 := by
    unfold zeroToSentinel
    split
    · norm_num
    · rename_i hne
      exact lt_of_le_of_ne hv hne
  have hnum : zeroToSentinel v - fgMin < 0 := by linarith
  have hnum0 : ¬ zeroToSentinel v - fgMin = 0 := ne_of_lt hnum
  have hnumneg : ¬ 0 < zeroToSentinel v - fgMin := not_lt.mpr (le_of_lt hnum)
  unfold normVoxel npDiv
  rcases eq_or_lt_of_le hle with heq | hlt
  · have hd : vMax - fgMin = 0 := by rw [← heq, sub_self]
    rw [if_pos hd, if_neg hnum0, if_neg hnumneg]
    show (NpFloat.fin (-1)).addOne = NpFloat.fin 0
    simp only [NpFloat.addOne]
    norm_num
  · have hd : ¬ vMax - fgMin = 0 := ne_of_gt (by linarith)
    rw [if_neg hd]
    have hqneg : (zeroToSentinel v - fgMin) / (vMax - fgMin) < 0 :=
      div_neg_of_neg_of_pos hnum (by linarith)
    simp only [NpFloat.ltZero, decide_eq_true_eq, if_pos hqneg, NpFloat.addOne]
    norm_num

theorem normVoxel_pos {fgMin vMax v : ℚ} (hfg : fgMin ≤ v) (hvM : v ≤ vMax)
    (hlt : fgMin < vMax) (hv : 0 < v) :
    ∃ q, normVoxel fgMin vMax v = NpFloat.fin q ∧ 1 ≤ q ∧ q ≤ 2 := by
  have hz : zeroToSentinel v = v := if_neg (ne_of_gt hv)
  have hd : ¬ vMax - fgMin = 0 := ne_of_gt (by linarith)
  have hq0 : 0 ≤ (v - fgMin) / (vMax - fgMin) := div_nonneg (by linarith) (by linarith)
  have hq1 : (v - fgMin) / (vMax - fgMin) ≤ 1 := by
    rw [div_le_one (by linarith)]
    linarith
  refine ⟨(v - fgMin) / (vMax - fgMin) + 1, ?_, by linarith, by linarith⟩
  unfold normVoxel npDiv
  rw [hz, if_neg hd]
  simp only [NpFloat.ltZero, decide_eq_true_eq, if_neg (not_lt.mpr hq0), NpFloat.addOne]

/-- Claim C8: when the cut volume contains no strictly positive voxel,
the intensity normalisation of `tumor_entity_weighted_approach` raises
(`ValueError` from `.min()` of the empty positive selection, in the spec
`EmptyRegionError`) instead of producing an output volume. -/
theorem normalizeIntensity_empty_region_errors (a : List ℚ)
    (h : ∀ v ∈ a, ¬ 0 < v) : normalizeIntensity a = none := by
  have hfil : (a.map zeroToSentinel).filter (fun v => decide (0 < v)) = [] := by
    rw [List.filter_eq_nil_iff]
    intro v hv
    simp only [decide_eq_true_eq]
    obtain ⟨w, hw, rfl⟩ := List.mem_map.mp hv
    unfold zeroToSentinel
    split
    · norm_num
    · exact h w hw
  unfold normalizeIntensity
  rw [hfil]
  rfl

/-- Claim C8 witness: the volume `[0, -1]` has no strictly positive
voxel, so the normalisation fails. -/
theorem normalizeIntensity_empty_region_errors_witness :
    normalizeIntensity [0, -1] = none :=
  normalizeIntensity_empty_region_errors [0, -1] (by norm_num)

/-- Claim C10: whenever the normalisation of
`tumor_entity_weighted_approach` produces an output, every voxel of the
cut volume that is less than or equal to 0 — not only the exact zeros —
is mapped to exactly 0: it rescales to a negative value (or `-inf` when
the rescale divides by zero), is clamped to the `-1` sentinel, and lands
on 0 after the `+1` offset. -/
theorem normalizeIntensity_nonpositive_to_zero (a : List ℚ) (out : List NpFloat)
    (hout : normalizeIntensity a = some out) :
    ∀ (i : ℕ) (v : ℚ), a[i]? = some v → v ≤ 0 → out[i]? = some (NpFloat.fin 0) := by
  cases hm : npMin ((a.map zeroToSentinel).filter (fun v => decide (0 < v))) with
  | none =>
    have hnone : normalizeIntensity a = none := by
      unfold normalizeIntensity
      rw [hm]
    rw [hnone] at hout
    exact Option.noConfusion hout
  | some fgMin =>
    cases hM : npMax (a.map zeroToSentinel) with
    | none =>
      have h1 := npMax_eq_none hM
      rw [h1] at hm
      simp only [List.filter_nil, npMin] at hm
      exact Option.noConfusion hm
    | some vMax =>
      rw [normalizeIntensity_eq_map hm hM] at hout
      injection hout with hout
      subst hout
      have hfgpos : 0 < fgMin := of_decide_eq_true (List.mem_filter.mp (npMin_mem hm)).2
      have hmem : fgMin ∈ a.map zeroToSentinel := (List.mem_filter.mp (npMin_mem hm)).1
      have hle : fgMin ≤ vMax := npMax_ge hM fgMin hmem
      intro i v hv hv0
      rw [List.getElem?_map, hv]
      show some (normVoxel fgMin vMax v) = some (NpFloat.fin 0)
      rw [normVoxel_nonpos hfgpos hle hv0]

/-- Claim C10 witness: in the volume `[0, -2, 1, 3]` the voxels `0` and
`-2` are both mapped to exactly 0. -/
theorem normalizeIntensity_nonpositive_to_zero_witness :
    ([NpFloat.fin 0, NpFloat.fin 0, NpFloat.fin 1, NpFloat.fin 2] : List NpFloat)[1]? =
      some (NpFloat.fin 0) :=
  normalizeIntensity_nonpositive_to_zero [0, -2, 1, 3]
    [NpFloat.fin 0, NpFloat.fin 0, NpFloat.fin 1, NpFloat.fin 2]
    (by norm_num [normalizeIntensity, zeroToSentinel, npMin, npMax, npDiv,
      NpFloat.ltZero, NpFloat.addOne, List.filter])
    1 (-2) rfl (by norm_num)

/-- Claim C3 counterexample: on the volume `[0, 1, 2]` (one zero voxel,
two strictly positive voxels), normalisation yields `[0, 1, 2]`: the
foreground-minimum voxel `1` is mapped to exactly 1, which is not
strictly greater than 1 as the claim requires — foreground values fill
the closed interval `[1, 2]`, not `(1, 2]`. -/
theorem normalizeIntensity_strict_range_counterexample :
    normalizeIntensity [0, 1, 2] = some [NpFloat.fin 0, NpFloat.fin 1, NpFloat.fin 2] ∧
    (0 : ℚ) < 1 ∧ ¬ ((1 : ℚ) < 1) := by
  refine ⟨?_, by norm_num, by norm_num⟩
  norm_num [normalizeIntensity, zeroToSentinel, npMin, npMax, npDiv,
    NpFloat.ltZero, NpFloat.addOne, List.filter]

/-- Claim C3 (amended): for every volume whose strictly positive voxels
take at least two distinct values, the normalisation of
`tumor_entity_weighted_approach` succeeds, preserves the shape, maps
every voxel that was exactly 0 to exactly 0, and maps every strictly
positive voxel into the closed interval `[1, 2]` (the foreground minimum
lands on exactly 1, so `(1, 2]` of the original claim is wrong; and with
all positive voxels equal the rescale divides by zero and produces NaN,
so the two-distinct-values hypothesis is necessary). -/
theorem normalizeIntensity_range (a : List ℚ)
    (h2 : ∃ v ∈ a, ∃ w ∈ a, 0 < v ∧ 0 < w ∧ v ≠ w) :
    ∃ out, normalizeIntensity a = some out ∧ out.length = a.length ∧
      ∀ (i : ℕ) (v : ℚ), a[i]? = some v →
        (v = 0 → out[i]? = some (NpFloat.fin 0)) ∧
        (0 < v → ∃ q, out[i]? = some (NpFloat.fin q) ∧ 1 ≤ q ∧ q ≤ 2) := by
  obtain ⟨p, hp, q, hq, hpp, hqp, hpq⟩ := h2
  have hpz : zeroToSentinel p = p := if_neg (ne_of_gt hpp)
  have hqz : zeroToSentinel q = q := if_neg (ne_of_gt hqp)
  have hp1 : p ∈ a.map zeroToSentinel := by
    rw [← hpz]
    exact List.mem_map_of_mem zeroToSentinel hp
  have hq1 : q ∈ a.map zeroToSentinel := by
    rw [← hqz]
    exact List.mem_map_of_mem zeroToSentinel hq
  have hpf : p ∈ (a.map zeroToSentinel).filter (fun v => decide (0 < v)) :=
    List.mem_filter.mpr ⟨hp1, by simpa using hpp⟩
  have hqf : q ∈ (a.map zeroToSentinel).filter (fun v => decide (0 < v)) :=
    List.mem_filter.mpr ⟨hq1, by simpa using hqp⟩
  obtain ⟨fgMin, hm⟩ := npMin_exists (List.ne_nil_of_mem hpf)
  obtain ⟨vMax, hM⟩ := npMax_exists (List.ne_nil_of_mem hp1)
  have hfgpos : 0 < fgMin := of_decide_eq_true (List.mem_filter.mp (npMin_mem hm)).2
  have hfgp : fgMin ≤ p := npMin_le hm p hpf
  have hfgq : fgMin ≤ q := npMin_le hm q hqf
  have hpM : p ≤ vMax := npMax_ge hM p hp1
  have hqM : q ≤ vMax := npMax_ge hM q hq1
  have hlt : fgMin < vMax := by
    rcases lt_or_eq_of_le (le_trans hfgp hpM) with h | h
    · exact h
    · have hp2 : p = fgMin := le_antisymm (h ▸ hpM) hfgp
      have hq2 : q = fgMin := le_antisymm (h ▸ hqM) hfgq
      exact absurd (hp2.trans hq2.symm) hpq
  refine ⟨a.map (normVoxel fgMin vMax), normalizeIntensity_eq_map hm hM,
    List.length_map a (normVoxel fgMin vMax), ?_⟩
  intro i v hv
  have hidx : (a.map (normVoxel fgMin vMax))[i]? = some (normVoxel fgMin vMax v) := by
    rw [List.getElem?_map, hv]
    rfl
  constructor
  · intro hv0
    rw [hidx, normVoxel_nonpos hfgpos (le_of_lt hlt) (le_of_eq hv0)]
  · intro hvpos
    have hvz : zeroToSentinel v = v := if_neg (ne_of_gt hvpos)
    have hv1 : v ∈ a.map zeroToSentinel := by
      rw [← hvz]
      exact List.mem_map_of_mem zeroToSentinel (List.getElem?_mem hv)
    have hvf : v ∈ (a.map zeroToSentinel).filter (fun v => decide (0 < v)) :=
      List.mem_filter.mpr ⟨hv1, by simpa using hvpos⟩
    obtain ⟨r, hr, hr1, hr2⟩ :=
      normVoxel_pos (npMin_le hm v hvf) (npMax_ge hM v hv1) hlt hvpos
    exact ⟨r, by rw [hidx, hr], hr1, hr2⟩

/-- Claim C3 witness: the amended claim instantiated at `[0, 1, 2]`,
whose positive voxels `1` and `2` are distinct. -/
theorem normalizeIntensity_range_witness :
    ∃ out, normalizeIntensity [0, 1, 2] = some out ∧
      out.length = ([0, 1, 2] : List ℚ).length ∧
      ∀ (i : ℕ) (v : ℚ), ([0, 1, 2] : List ℚ)[i]? = some v →
        (v = 0 → out[i]? = some (NpFloat.fin 0)) ∧
        (0 < v → ∃ q, out[i]? = some (NpFloat.fin q) ∧ 1 ≤ q ∧ q ≤ 2) :=
  normalizeIntensity_range [0, 1, 2]
    ⟨1, by norm_num, 2, by norm_num, by norm_num, by norm_num, by norm_num⟩
